import Mathlib

set_option linter.unusedVariables false
set_option linter.unusedSectionVars false
set_option linter.unusedTactic false
set_option maxRecDepth 8000

namespace Engine

/-- JavaScript truthiness for tile values: the host instantiates the generic tile
type with some concrete type, in which certain values (the number 0, the empty
string) are falsy.  The engine's `if (x)` tests observe this. -/
class Falsy (T : Type) where
  falsy : T → Bool

/-- A JavaScript cell/read value: a tile value, JS `null` (empty cell), or JS
`undefined` (out-of-bounds read). -/
inductive JSVal (T : Type) where
  | undefinedV
  | null
  | val (v : T)
deriving DecidableEq, Repr

variable {T : Type} [DecidableEq T] [Falsy T]

/-- JS truthiness of a cell value: `null` and `undefined` are falsy, a tile value
is truthy unless the host type marks it falsy (e.g. the number 0). -/
def truthy (x : JSVal T) : Bool :=
  match x with
  | .val v => !(Falsy.falsy v)
  | _ => false

/-- JS loose equality (`==`) on cell values: `null == undefined` is true, two tile
values compare by equality, and a tile value is never loosely equal to
`null`/`undefined`. -/
def jsEq (a b : JSVal T) : Bool :=
  match a, b with
  | .val x, .val y => decide (x = y)
  | .val _, _ => false
  | _, .val _ => false
  | _, _ => true

/-- `Position` from the source: an integer pair; `row` grows downward, `col`
rightward.  Negative coordinates are representable (bounds checks handle them). -/
structure Position where
  row : Int
  col : Int
deriving DecidableEq, Repr

/-- The 2-dimensional grid `T[][]`, addressed `grid[col][row]`: the outer list is
the list of columns. -/
abbrev Grid (T : Type) := List (List (JSVal T))

/-- `g[col][row]` as JS evaluates it for an existing column: a missing row index
reads `undefined`; a missing column reads as the empty column (the source only
indexes columns it has bounds-checked). -/
def cellD (g : Grid T) (col row : Nat) : JSVal T :=
  (g.getD col []).getD row .undefinedV

/-- `getPiece` from the source: bounds check against the outer length and the
FIRST column's length, `undefined` when out of bounds. -/
def getPiece (g : Grid T) (p : Position) : JSVal T :=
  if p.col < 0 ∨ p.row < 0 ∨ (g.length : Int) ≤ p.col ∨ ((g.headD []).length : Int) ≤ p.row then
    .undefinedV
  else
    cellD g p.col.toNat p.row.toNat

/-- The assignment `g[col][row] = v` (column updated in place in the source;
value-passing here). -/
def setCellNat (g : Grid T) (col row : Nat) (v : JSVal T) : Grid T :=
  g.set col ((g.getD col []).set row v)

/-- The assignment `g[p.col][p.row] = v`; the source performs it only on
in-bounds positions, negative indices are kept as no-ops. -/
def setCell (g : Grid T) (p : Position) (v : JSVal T) : Grid T :=
  if p.col < 0 ∨ p.row < 0 then g else setCellNat g p.col.toNat p.row.toNat v

/-- Fuel bound for the directional walks.  Every recursive walk in the source
(`checkNext`, `checkNextIs`, `addNext`) continues only while the visited cell
loosely equals a tile value, which forces the visited position in bounds; along
a cardinal unit vector there are at most `width` (resp. `height`) such
positions, so this fuel never runs out on the source's call patterns. -/
def walkFuel (g : Grid T) : Nat :=
  g.length + (g.headD []).length + 2

/-- `checkNext` from the source: counts pieces matching `refPiece` from
`currPos` in direction `dir`, including `currPos`; stops at the first falsy or
non-matching cell. -/
def checkNext (g : Grid T) (refPiece : JSVal T) (currPos dir : Position) : Nat → Nat
  | 0 => 0
  | fuel + 1 =>
    let currPiece := getPiece g currPos
    if truthy currPiece && jsEq currPiece refPiece then
      1 + checkNext g refPiece ⟨currPos.row + dir.row, currPos.col + dir.col⟩ dir fuel
    else 0

/-- The result enum of `anyMatchingOn`. -/
inductive MatchDir where
  | None
  | Horizontal
  | Vertical
  | Both
deriving DecidableEq, Repr

/-- `anyMatchingOn` from the source: classifies the match state at a position by
counting west+east and north+south runs of the reference piece (subtracting the
double-counted origin); a falsy reference piece short-circuits to `None`. -/
def anyMatchingOn (g : Grid T) (pos : Position) : MatchDir :=
  let vn : Position := ⟨-1, 0⟩
  let ve : Position := ⟨0, 1⟩
  let vs : Position := ⟨1, 0⟩
  let vw : Position := ⟨0, -1⟩
  let refPiece := getPiece g pos
  if truthy refPiece then
    let matchWE := checkNext g refPiece pos vw (walkFuel g) + checkNext g refPiece pos ve (walkFuel g) - 1
    let matchNS := checkNext g refPiece pos vn (walkFuel g) + checkNext g refPiece pos vs (walkFuel g) - 1
    if 3 ≤ matchWE ∧ 3 ≤ matchNS then .Both
    else if 3 ≤ matchWE then .Horizontal
    else if 3 ≤ matchNS then .Vertical
    else .None
  else .None

/-- `swapPieces` from the source: copy the grid, swap the cells at the two
positions. -/
def swapPieces (g : Grid T) (p1 p2 : Position) : Grid T :=
  let tmp := getPiece g p1
  let g1 := setCell g p1 (getPiece g p2)
  setCell g1 p2 tmp

/-- The host-supplied tile generator.  In the source it is a stateful object
`{ next: () => T }` shared by reference; here its state is the pair of an
underlying sequence and a cursor, and `next` returns the drawn value together
with the advanced generator. -/
structure Generator (T : Type) where
  f : Nat → T
  idx : Nat

/-- One `generator.next()` call. -/
def Generator.next (gen : Generator T) : T × Generator T :=
  (gen.f gen.idx, { gen with idx := gen.idx + 1 })

/-- `Board` from the source. -/
structure Board (T : Type) where
  sequenceGenerator : Generator T
  boardState : Grid T
  width : Nat
  height : Nat

/-- `outOfBounds` from the source: compares against the board's declared
`width`/`height` fields. -/
def outOfBounds (b : Board T) (p : Position) : Bool :=
  decide (p.row < 0 ∨ p.col < 0 ∨ (b.height : Int) ≤ p.row ∨ (b.width : Int) ≤ p.col)

/-- `piece` from the source: bounds-checked read, `undefined` when out of
bounds, otherwise `boardState[col][row]`. -/
def piece (b : Board T) (p : Position) : JSVal T :=
  if outOfBounds b p then .undefinedV
  else cellD b.boardState p.col.toNat p.row.toNat

/-- The inner `illegalMoves` of `canMove`: true when either `piece` read is
strictly (`===`) `undefined`, when the positions share neither row nor column,
or when the coordinate differences are both zero (identical position). -/
def illegalMoves (b : Board T) (first second : Position) : Bool :=
  if piece b first = .undefinedV ∨ piece b second = .undefinedV then true
  else if first.col ≠ second.col ∧ first.row ≠ second.row then true
  else decide (first.col - second.col = 0 ∧ first.row - second.row = 0)

/-- The inner `legalMoves` of `canMove`: simulate the swap on a copy and
require a non-`None` match state at one of the two positions. -/
def legalMoves (b : Board T) (first second : Position) : Bool :=
  let simulatedBoard := swapPieces b.boardState first second
  if anyMatchingOn simulatedBoard first = .None ∧ anyMatchingOn simulatedBoard second = .None then
    false
  else true

/-- `canMove` from the source. -/
def canMove (b : Board T) (first second : Position) : Bool :=
  if illegalMoves b first second then false else legalMoves b first second

/-- `positions` from the source: all positions in row-major order (row 0 across
all columns, then row 1, ...). -/
def positions (b : Board T) : List Position :=
  ((List.range b.height).map (fun y => (List.range b.width).map (fun x => (⟨(y : Int), (x : Int)⟩ : Position)))).flatten

/-- The two real run directions (`getMatchEvent` handles the `"None"` token
before any conversion, and `directionToVector`'s default branch is
unreachable). -/
inductive Dir where
  | Horizontal
  | Vertical
deriving DecidableEq, Repr

/-- `directionToVector` from the source: unit vector of a direction, negated
when walking toward the start of a chain. -/
def directionToVector (d : Dir) (isReverse : Bool) : Position :=
  match d with
  | .Vertical => ⟨if isReverse then -1 else 1, 0⟩
  | .Horizontal => ⟨0, if isReverse then -1 else 1⟩

/-- `checkNextIs` from the source: walk from `pos` in direction `dir` while the
NEXT cell loosely equals `refPiece`; returns the last position whose successor
no longer matches. -/
def checkNextIs (g : Grid T) (pos dir : Position) (refPiece : JSVal T) : Nat → Position
  | 0 => pos
  | fuel + 1 =>
    let newPos : Position := ⟨pos.row + dir.row, pos.col + dir.col⟩
    let actualPiece := getPiece g newPos
    if jsEq actualPiece refPiece then checkNextIs g newPos dir refPiece fuel
    else pos

/-- `addNext` from the source (the list accumulated by mutation there is the
returned list here): collect `curr` and keep walking while the next cell
loosely equals `refPiece`. -/
def addNext (g : Grid T) (curr dir : Position) (refPiece : JSVal T) : Nat → List Position
  | 0 => [curr]
  | fuel + 1 =>
    let nextPos : Position := ⟨curr.row + dir.row, curr.col + dir.col⟩
    if jsEq (getPiece g nextPos) refPiece then curr :: addNext g nextPos dir refPiece fuel
    else [curr]

/-- `getMatchPositions` from the source: walk backward (west/north) to the first
position of the chain, then collect forward. -/
def getMatchPositions (g : Grid T) (d : Dir) (refPos : Position) : List Position :=
  let refPiece := getPiece g refPos
  let firstInDir := checkNextIs g refPos (directionToVector d true) refPiece (walkFuel g)
  addNext g firstInDir (directionToVector d false) refPiece (walkFuel g)

/-- `Match<T>` from the source. -/
structure MatchData (T : Type) where
  matched : JSVal T
  positions : List Position
deriving DecidableEq, Repr

/-- `Effect<T>` from the source. -/
inductive Effect (T : Type) where
  | Refill
  | Match (m : MatchData T)
deriving DecidableEq, Repr

/-- `MoveResult<T>` from the source. -/
structure MoveResult (T : Type) where
  board : Board T
  effects : List (Effect T)

/-- `getMatchEvent` from the source, for a real direction (the `"None"` case
returns null there and is never pushed by `checkFor`). -/
def getMatchEvent (g : Grid T) (pos : Position) (d : Dir) : Effect T :=
  let piece := getPiece g pos
  .Match ⟨piece, getMatchPositions g d pos⟩

/-- `checkFor` from `move` in the source, as a pure transformer of the pair
(effects so far, match-position list so far; `none` models the still-undefined
`m_matches`).  NOTE: the `Both` branch assigns `m_matches` instead of
concatenating, discarding previously accumulated positions — translated
faithfully. -/
def checkFor (g : Grid T) (pos : Position) (st : List (Effect T) × Option (List Position)) :
    List (Effect T) × Option (List Position) :=
  match anyMatchingOn g pos with
  | .None => st
  | .Both =>
    let horizontalMatches := getMatchEvent g pos .Horizontal
    let verticalMatches := getMatchEvent g pos .Vertical
    let ms := getMatchPositions g .Horizontal pos ++ getMatchPositions g .Vertical pos
    (st.1 ++ [horizontalMatches, verticalMatches], some ms)
  | .Horizontal =>
    (st.1 ++ [getMatchEvent g pos .Horizontal],
      match st.2 with
      | none => some (getMatchPositions g .Horizontal pos)
      | some l => some (l ++ getMatchPositions g .Horizontal pos))
  | .Vertical =>
    (st.1 ++ [getMatchEvent g pos .Vertical],
      match st.2 with
      | none => some (getMatchPositions g .Vertical pos)
      | some l => some (l ++ getMatchPositions g .Vertical pos))

/-- `removeMatchesFrom` from the source: null out every listed position. -/
def removeMatchesFrom (g : Grid T) (matchList : List Position) : Grid T :=
  matchList.foldl (fun acc p => setCell acc p .null) g

/-- The inner `while` of the gravity pass: from `j` scan upward (decreasing row
index) for the first truthy cell of the column. -/
def gravityFindRow (c : List (JSVal T)) : Nat → Option Nat
  | 0 => if truthy (c.getD 0 .undefinedV) then some 0 else none
  | j + 1 => if truthy (c.getD (j + 1) .undefinedV) then some (j + 1) else gravityFindRow c j

/-- One gravity-cell step of `refillBoard` on a single column: if the cell at
`row` is falsy, pull down the nearest non-falsy cell above it (if any) and null
its origin. -/
def gravityColStep (row : Nat) (c : List (JSVal T)) : List (JSVal T) :=
  if truthy (c.getD row .undefinedV) then c
  else
    match gravityFindRow c (row - 1) with
    | none => c
    | some j => (c.set row (c.getD j .undefinedV)).set j .null

/-- The rows `r, r-1, ..., 1` portion of the gravity pass restricted to one
column (the source's row-outer column-inner loop only ever touches column
`col` when processing column `col`, so it factors through this). -/
def colGravityAux (c : List (JSVal T)) : Nat → List (JSVal T)
  | 0 => c
  | r + 1 => colGravityAux (gravityColStep (r + 1) c) r

/-- The inner column loop of the gravity pass at a fixed `row`:
`rb_newBoardState[col][row] = ...` touches only column `col`. -/
def gravityRowPass (g : Grid T) (row width : Nat) : Grid T :=
  (List.range width).foldl (fun acc col => acc.set col (gravityColStep row (acc.getD col []))) g

/-- The gravity pass of `refillBoard`: rows from `height-1` down to `1`. -/
def gravityPass (g : Grid T) (width height : Nat) : Grid T :=
  (((List.range (height - 1)).reverse).map (· + 1)).foldl (fun acc row => gravityRowPass acc row width) g

/-- One refill-cell step of `refillBoard`: replace a falsy cell by the next
generator value. -/
def refillCellStep (st : Grid T × Generator T) (col row : Nat) : Grid T × Generator T :=
  if truthy (cellD st.1 col row) then st
  else (setCellNat st.1 col row (.val (Generator.next st.2).1), (Generator.next st.2).2)

/-- The refill pass of `refillBoard`: rows from `height-1` down to `0`, columns
left to right, filling every falsy cell from the generator. -/
def refillPass (g : Grid T) (gen : Generator T) (width height : Nat) : Grid T × Generator T :=
  ((List.range height).reverse).foldl
    (fun st row => (List.range width).foldl (fun st col => refillCellStep st col row) st)
    (g, gen)

/-- `refillBoard` from the source: gravity pass, then refill pass.  The
generator is a shared mutable reference in the source; its advanced state is
returned in the new board. -/
def refillBoard (b : Board T) : Board T :=
  { sequenceGenerator :=
      (refillPass (gravityPass b.boardState b.width b.height) b.sequenceGenerator
        b.width b.height).2,
    boardState :=
      (refillPass (gravityPass b.boardState b.width b.height) b.sequenceGenerator
        b.width b.height).1,
    width := b.width,
    height := b.height }

/-- The inner `anyMatching` of `move`: first position (row-major) whose match
state is not `None`. -/
def anyMatching (b : Board T) : Option Position :=
  (positions b).find? (fun pos => anyMatchingOn b.boardState pos ≠ .None)

/-- The straight-line prefix of `move` after the `canMove` guard: swap, then
`checkFor` on both positions.  Returns the swapped grid, the effects pushed so
far and the accumulated `m_matches` (`none` when still undefined). -/
def movePhase1 (b : Board T) (first second : Position) :
    Grid T × List (Effect T) × Option (List Position) :=
  let newBoardState := swapPieces b.boardState first second
  let st1 := checkFor newBoardState first ([], none)
  let st2 := checkFor newBoardState second st1
  (newBoardState, st2.1, st2.2)

/-- The board evolution performed by one iteration of the cascade `while` loop
of `move` (identity on a quiescent board).  The constructed board takes
`width`/`height` from the original board, as the source's `{...m_board}` spread
does, and the CURRENT generator state, as the source's shared generator
reference does. -/
def cascadeStep (mBoard : Board T) (refilled : Board T) : Board T :=
  match anyMatching refilled with
  | none => refilled
  | some pos =>
    let st := checkFor refilled.boardState pos ([], some [])
    let cleared := removeMatchesFrom refilled.boardState (st.2.getD [])
    refillBoard { mBoard with boardState := cleared, sequenceGenerator := refilled.sequenceGenerator }

/-- The board state entering the cascade loop of `move`: the swapped grid with
the accumulated match positions cleared, gravity-compacted and refilled. -/
def phase1Board (b : Board T) (first second : Position) : Board T :=
  refillBoard
    { b with
      boardState :=
        removeMatchesFrom (movePhase1 b first second).1
          (((movePhase1 b first second).2.2).getD []) }

/-- The cascade `while` loop of `move`, with fuel: `none` models a call that has
not returned (the source loop would still be running). -/
def moveLoop (mBoard : Board T) (refilled : Board T) (effects : List (Effect T)) :
    Nat → Option (MoveResult T)
  | 0 => none
  | fuel + 1 =>
    match anyMatching refilled with
    | none => some ⟨refilled, effects⟩
    | some pos =>
      let st := checkFor refilled.boardState pos (effects, some [])
      let cleared := removeMatchesFrom refilled.boardState (st.2.getD [])
      let refilled2 := refillBoard { mBoard with boardState := cleared, sequenceGenerator := refilled.sequenceGenerator }
      moveLoop mBoard refilled2 (st.1 ++ [.Refill]) fuel

/-- `move` from the source.  The generator parameter is unused there ("not
being used").  `none` models a call that does not return normally: either the
cascade loop outruns the fuel, or `m_matches` is still undefined when
`removeMatchesFrom` iterates it (unreachable, since `canMove` guarantees a
match at one of the two positions). -/
def move (gen : Generator T) (b : Board T) (first second : Position) (fuel : Nat) :
    Option (MoveResult T) :=
  if canMove b first second = false then some ⟨b, []⟩
  else
    match (movePhase1 b first second).2.2 with
    | none => none
    | some ms =>
      moveLoop b
        (refillBoard { b with boardState := removeMatchesFrom (movePhase1 b first second).1 ms })
        ((movePhase1 b first second).2.1 ++ [.Refill]) fuel

/-- Spec-side predicate: the cell holds an actual tile value (is not the empty
cell and not an out-of-bounds read). -/
def isVal (x : JSVal T) : Bool :=
  match x with
  | .val _ => true
  | _ => false

/-- Spec-side description of the gravity pass on one column (§4.4 step 5 of the
spec): compact all truthy tiles toward the bottom, preserving their relative
order, padding the top with empty cells. -/
def compactColumn (c : List (JSVal T)) : List (JSVal T) :=
  List.replicate (c.length - (c.filter truthy).length) .null ++ c.filter truthy

/-- Spec-side description of a horizontal run: the positions of row `r`,
columns `cL, cL+1, ..., cL+len-1`, in forward (west to east) order. -/
def runListH (r : Int) (cL : Int) (len : Nat) : List Position :=
  (List.range len).map (fun i : Nat => (⟨r, cL + (i : Int)⟩ : Position))

/-- Spec-side description of a vertical run: the positions of column `c`,
rows `rL, rL+1, ..., rL+len-1`, in forward (north to south) order. -/
def runListV (c : Int) (rL : Int) (len : Nat) : List Position :=
  (List.range len).map (fun i : Nat => (⟨rL + (i : Int), c⟩ : Position))

/-- Well-formedness of a board: the declared dimensions match the grid. -/
def wfBoard (b : Board T) : Prop :=
  b.boardState.length = b.width ∧ ∀ c ∈ b.boardState, c.length = b.height

/-- Every cell of one column is either the empty cell or a truthy tile value. -/
def cellsNullOrTruthy (c : List (JSVal T)) : Prop :=
  ∀ x ∈ c, x = JSVal.null ∨ truthy x = true

/-- Every cell of the grid holds either the empty cell or a truthy tile value
(no `undefined` holes, no falsy tile values). -/
def nullOrTruthy (g : Grid T) : Prop :=
  ∀ c ∈ g, cellsNullOrTruthy c

/-- Compaction invariant for the downward gravity sweep of one column: below
the sweep front `r`, an empty cell only ever appears with every cell above it
empty as well. -/
def nullsAbove (c : List (JSVal T)) (r : Nat) : Prop :=
  ∀ i : Nat, r < i → i < c.length → c.getD i .undefinedV = JSVal.null →
    ∀ j : Nat, j ≤ i → c.getD j .undefinedV = JSVal.null

/-- Every cell of the grid holds a truthy tile value. -/
def allTruthy (g : Grid T) : Prop :=
  ∀ c ∈ g, ∀ x ∈ c, truthy x = true

/-- No cell of the grid is an `undefined` hole. -/
def noUndef (g : Grid T) : Prop :=
  ∀ c ∈ g, ∀ x ∈ c, x ≠ JSVal.undefinedV

instance : Falsy Nat := ⟨fun n => n == 0⟩

instance : DecidablePred (wfBoard (T := T)) := fun b => by
  unfold wfBoard; infer_instance

instance : DecidablePred (cellsNullOrTruthy (T := T)) := fun c => by
  unfold cellsNullOrTruthy; infer_instance

instance : DecidablePred (nullOrTruthy (T := T)) := fun g => by
  unfold nullOrTruthy cellsNullOrTruthy; infer_instance

instance : DecidablePred (allTruthy (T := T)) := fun g => by
  unfold allTruthy; infer_instance

instance : DecidablePred (noUndef (T := T)) := fun g => by
  unfold noUndef; infer_instance

/-- Concrete 2x2 board used to witness the bounds behaviour of `piece`. -/
def bC7 : Board Nat := ⟨⟨fun n => n + 1, 0⟩, [[.val 1, .val 2], [.val 3, .val 4]], 2, 2⟩

/-- Concrete 2x2 board used to witness the no-op branch of `move`. -/
def bC3 : Board Nat := ⟨⟨fun n => n + 1, 0⟩, [[.val 1, .val 2], [.val 3, .val 4]], 2, 2⟩

/-- Concrete 3x1 board whose row consists of three falsy tiles (the number 0). -/
def bC10 : Board Nat := ⟨⟨fun n => n + 1, 0⟩, [[.val 0], [.val 0], [.val 0]], 3, 1⟩

/-- Concrete 4x1 board with an empty cell at column 2: swapping columns 2 and 3
is accepted by `canMove` although column 2 holds no tile. -/
def bC2 : Board Nat := ⟨⟨fun n => n + 1, 0⟩, [[.val 1], [.val 1], [.null], [.val 1]], 4, 1⟩

/-- Concrete 3x2 board used for the amended-claim witnesses: swapping the two
cells of column 2 completes the horizontal run 1,1,1 on row 0 and the cascade
settles after a single refill (the generator emits 10,11,12,...). -/
def bCW : Board Nat := ⟨⟨fun n => n + 10, 0⟩, [[.val 1, .val 4], [.val 1, .val 5], [.val 3, .val 1]], 3, 2⟩

/-- Concrete 3x1 board that already contains a horizontal run; a rejected move
returns it unchanged, matches included. -/
def bC1 : Board Nat := ⟨⟨fun n => n + 1, 0⟩, [[.val 1], [.val 1], [.val 1]], 3, 1⟩

/-- The result `move` produces on `bCW` for the valid swap of column 2. -/
def rC1w : MoveResult Nat := (move ⟨fun n => n + 10, 0⟩ bCW ⟨0, 2⟩ ⟨1, 2⟩ 1).getD ⟨bCW, []⟩

/-- Concrete 6x4 board for the `Both`-match scenario.  Swapping (row 0, col 0)
with (row 0, col 3) yields row 0 = 1,1,1,2,2,2 with a vertical run of 2s in
column 3: a Horizontal match at the first position and a Both match at the
second. -/
def bC4 : Board Nat :=
  ⟨⟨fun n => n + 20, 0⟩,
   [[.val 2, .val 3, .val 8, .val 13], [.val 1, .val 4, .val 9, .val 14],
    [.val 1, .val 5, .val 10, .val 15], [.val 1, .val 2, .val 2, .val 16],
    [.val 2, .val 6, .val 11, .val 17], [.val 2, .val 7, .val 12, .val 18]], 6, 4⟩

/-- Concrete 4x4 grid with a horizontal run of exactly three 5s on row 2,
columns 1 to 3. -/
def gC6 : Grid Nat :=
  [[.val 1, .val 2, .val 3, .val 4], [.val 6, .val 7, .val 5, .val 9],
   [.val 11, .val 12, .val 5, .val 14], [.val 16, .val 17, .val 5, .val 19]]

/-- Concrete single-column grid holding the truthy tile 1 above the falsy tile
0: the gravity pass destroys the 0 tile. -/
def gC5 : Grid Nat := [[.val 1, .val 0]]

/-- Concrete 1x2 board with no empty cell but a falsy tile: `refillBoard` is
not the identity on it. -/
def bC9 : Board Nat := ⟨⟨fun n => n + 7, 0⟩, [[.val 1, .val 0]], 1, 2⟩

/-- Concrete 2x3 board with empty cells, used to witness the amended gravity
and refill behaviour. -/
def bC5w : Board Nat := ⟨⟨fun n => n + 30, 0⟩, [[.val 1, .null, .val 2], [.null, .val 3, .null]], 2, 3⟩

/-- Concrete 2x2 board with all cells truthy: `refillBoard` leaves it intact. -/
def bC9w : Board Nat := ⟨⟨fun n => n + 1, 5⟩, [[.val 1, .val 2], [.val 3, .val 4]], 2, 2⟩

theorem getD_mem_of_lt {α : Type} (l : List α) (i : Nat) (d : α) (h : i < l.length) :
    l.getD i d ∈ l := by
  induction l generalizing i with
  | nil => simp at h
  | cons x xs ih =>
    cases i with
    | zero => simp [List.getD]
    | succ j =>
      have : j < xs.length := by simpa using h
      simpa [List.getD] using Or.inr (ih j this)

theorem anyMatchingOn_of_not_truthy (g : Grid T) (p : Position)
    (h : truthy (getPiece g p) = false) : anyMatchingOn g p = .None := by
  unfold anyMatchingOn
  simp [h]

theorem piece_bounds_aux (b : Board T) (p : Position) :
    ((p.row < 0 ∨ p.col < 0 ∨ (b.height : Int) ≤ p.row ∨ (b.width : Int) ≤ p.col) →
      piece b p = .undefinedV) ∧
    (¬(p.row < 0 ∨ p.col < 0 ∨ (b.height : Int) ≤ p.row ∨ (b.width : Int) ≤ p.col) →
      piece b p = cellD b.boardState p.col.toNat p.row.toNat) := by
  constructor
  · intro h
    simp [piece, outOfBounds, h]
  · intro h
    simp [piece, outOfBounds, h]

/-- C7.  `piece` is a bounds-checked read: any position with a negative
coordinate or a coordinate at or beyond the declared `height`/`width` yields
the absent sentinel (JS `undefined`), and any in-bounds position yields the
grid cell's content. -/
theorem piece_bounds (b : Board T) (p : Position) :
    ((p.row < 0 ∨ p.col < 0 ∨ (b.height : Int) ≤ p.row ∨ (b.width : Int) ≤ p.col) →
      piece b p = .undefinedV) ∧
    (¬(p.row < 0 ∨ p.col < 0 ∨ (b.height : Int) ≤ p.row ∨ (b.width : Int) ≤ p.col) →
      piece b p = cellD b.boardState p.col.toNat p.row.toNat) :=
  piece_bounds_aux b p

/-- Witness for C7 on a concrete board: a negative row reads `undefined`, an
in-bounds position reads the stored cell. -/
theorem piece_bounds_witness :
    piece bC7 ⟨-1, 0⟩ = JSVal.undefinedV ∧ piece bC7 ⟨1, 1⟩ = cellD bC7.boardState 1 1 :=
  ⟨(piece_bounds bC7 ⟨-1, 0⟩).1 (by decide), (piece_bounds bC7 ⟨1, 1⟩).2 (by decide)⟩

/-- C3.  When `canMove` is false, `move` returns the input board itself (hence
the same tile at every position) together with the empty effect list, for any
generator and any fuel. -/
theorem move_noop_of_not_canMove (gen : Generator T) (b : Board T) (f s : Position)
    (fuel : Nat) (h : canMove b f s = false) : move gen b f s fuel = some ⟨b, []⟩ := by
  simp [move, h]

/-- Witness for C3: the identical-position move on a concrete board is a
no-op. -/
theorem move_noop_witness :
    move ⟨fun n => n + 1, 0⟩ bC3 ⟨0, 0⟩ ⟨0, 0⟩ 3 = some ⟨bC3, []⟩ :=
  move_noop_of_not_canMove ⟨fun n => n + 1, 0⟩ bC3 ⟨0, 0⟩ ⟨0, 0⟩ 3 (by decide)

/-- C10.  Match detection conflates falsy tile values with empty cells: a
position holding a falsy tile value is classified `None` by `anyMatchingOn`
regardless of its neighbourhood, and a swap after which both swapped positions
hold falsy values (as any swap among falsy tiles does) is rejected by
`canMove`. -/
theorem falsy_tiles_never_match :
    (∀ (g : Grid T) (p : Position) (v : T), Falsy.falsy v = true → getPiece g p = .val v →
      anyMatchingOn g p = .None) ∧
    (∀ (b : Board T) (f s : Position),
      truthy (getPiece (swapPieces b.boardState f s) f) = false →
      truthy (getPiece (swapPieces b.boardState f s) s) = false →
      canMove b f s = false) := by
  constructor
  · intro g p v hv hp
    apply anyMatchingOn_of_not_truthy
    rw [hp]
    simp [truthy, hv]
  · intro b f s hf hs
    unfold canMove
    split
    · rfl
    · have h1 := anyMatchingOn_of_not_truthy (swapPieces b.boardState f s) f hf
      have h2 := anyMatchingOn_of_not_truthy (swapPieces b.boardState f s) s hs
      simp [legalMoves, h1, h2]

/-- Witness for C10: on a row of three 0 tiles, the middle position is
classified `None`, and the swap of the two end tiles is rejected. -/
theorem falsy_tiles_never_match_witness :
    anyMatchingOn bC10.boardState ⟨0, 1⟩ = MatchDir.None ∧ canMove bC10 ⟨0, 0⟩ ⟨0, 2⟩ = false :=
  ⟨(falsy_tiles_never_match (T := Nat)).1 bC10.boardState ⟨0, 1⟩ 0 (by decide) (by decide),
   (falsy_tiles_never_match (T := Nat)).2 bC10 ⟨0, 0⟩ ⟨0, 2⟩ (by decide) (by decide)⟩

theorem piece_eq_undefined_iff (b : Board T) (p : Position) (hwf : wfBoard b)
    (hnu : noUndef b.boardState) :
    piece b p = .undefinedV ↔
      (p.row < 0 ∨ p.col < 0 ∨ (b.height : Int) ≤ p.row ∨ (b.width : Int) ≤ p.col) := by
  constructor
  · intro h
    by_contra hoob
    rw [(piece_bounds_aux b p).2 hoob] at h
    push_neg at hoob
    obtain ⟨hr, hc, hh, hw⟩ := hoob
    have hcol : p.col.toNat < b.boardState.length := by
      rw [hwf.1]
      omega
    have hmemc : b.boardState.getD p.col.toNat [] ∈ b.boardState :=
      getD_mem_of_lt _ _ _ hcol
    have hlen : (b.boardState.getD p.col.toNat []).length = b.height := hwf.2 _ hmemc
    have hrow : p.row.toNat < (b.boardState.getD p.col.toNat []).length := by
      rw [hlen]
      omega
    have hmemx : (b.boardState.getD p.col.toNat []).getD p.row.toNat .undefinedV ∈
        b.boardState.getD p.col.toNat [] := getD_mem_of_lt _ _ _ hrow
    exact hnu _ hmemc _ hmemx (by simpa [cellD] using h)
  · exact (piece_bounds_aux b p).1

theorem canMove_eq_and (b : Board T) (f s : Position) :
    canMove b f s = (!illegalMoves b f s && legalMoves b f s) := by
  unfold canMove
  cases h : illegalMoves b f s <;> simp [h]

theorem illegalMoves_eq_false_iff (b : Board T) (f s : Position) :
    illegalMoves b f s = false ↔
      piece b f ≠ .undefinedV ∧ piece b s ≠ .undefinedV ∧ (f.col = s.col ∨ f.row = s.row) ∧ f ≠ s := by
  unfold illegalMoves
  split
  · rename_i h
    apply iff_of_false (by simp)
    intro hc
    exact (h.elim (fun h1 => hc.1 h1) (fun h2 => hc.2.1 h2))
  · rename_i h
    push_neg at h
    split
    · rename_i h2
      apply iff_of_false (by simp)
      intro hc
      rcases hc.2.2.1 with hcol | hrow
      · exact h2.1 hcol
      · exact h2.2 hrow
    · rename_i h2
      push_neg at h2
      rw [decide_eq_false_iff_not]
      constructor
      · intro hd
        rcases Decidable.em (f.col = s.col) with hcol | hcol
        · refine ⟨h.1, h.2, Or.inl hcol, ?_⟩
          intro hfs
          subst hfs
          simp at hd
        · refine ⟨h.1, h.2, Or.inr (h2 hcol), ?_⟩
          intro hfs
          subst hfs
          simp at hcol
      · intro hc hd
        apply hc.2.2.2
        have hco : f.col = s.col := by omega
        have hro : f.row = s.row := by omega
        cases f
        cases s
        simp_all

theorem legalMoves_eq_true_iff (b : Board T) (f s : Position) :
    legalMoves b f s = true ↔
      (anyMatchingOn (swapPieces b.boardState f s) f ≠ .None ∨
       anyMatchingOn (swapPieces b.boardState f s) s ≠ .None) := by
  simp only [legalMoves]
  split
  · rename_i h
    apply iff_of_false (by simp)
    push_neg
    exact ⟨h.1, h.2⟩
  · rename_i h
    push_neg at h
    apply iff_of_true rfl
    by_cases h1 : anyMatchingOn (swapPieces b.boardState f s) f = .None
    · exact Or.inr (h h1)
    · exact Or.inl h1

/-- Counterexample to C2 as stated: on `bC2` the swap of columns 2 and 3 of
row 0 is accepted by `canMove` although the cell at (row 0, col 2) holds no
tile (it is the empty cell, not a non-empty tile), because `illegalMoves` only
compares the `piece` reads against strict `undefined`. -/
theorem canMove_empty_cell_counterexample :
    canMove bC2 ⟨0, 2⟩ ⟨0, 3⟩ = true ∧ piece bC2 ⟨0, 2⟩ = JSVal.null := by
  constructor
  · decide
  · decide

/-- C2 amended.  For a well-formed board with no `undefined` holes, `canMove`
returns true iff both positions are in bounds (they need NOT hold a non-empty
tile), the positions share a row or a column and are not identical, and the
swap simulated on a copy of the grid produces a non-`None` match state
(`Horizontal`, `Vertical` or `Both`) at one of the two swapped positions. -/
theorem canMove_iff (b : Board T) (f s : Position) (hwf : wfBoard b)
    (hnu : noUndef b.boardState) :
    canMove b f s = true ↔
      (¬(f.row < 0 ∨ f.col < 0 ∨ (b.height : Int) ≤ f.row ∨ (b.width : Int) ≤ f.col) ∧
       ¬(s.row < 0 ∨ s.col < 0 ∨ (b.height : Int) ≤ s.row ∨ (b.width : Int) ≤ s.col)) ∧
      ((f.col = s.col ∨ f.row = s.row) ∧ f ≠ s) ∧
      (anyMatchingOn (swapPieces b.boardState f s) f ≠ .None ∨
       anyMatchingOn (swapPieces b.boardState f s) s ≠ .None) := by
  rw [canMove_eq_and]
  constructor
  · intro h
    have hi : illegalMoves b f s = false := by
      cases hil : illegalMoves b f s
      · rfl
      · rw [hil] at h
        simp at h
    have hl : legalMoves b f s = true := by
      rw [hi] at h
      simpa using h
    obtain ⟨h1, h2, h3, h4⟩ := (illegalMoves_eq_false_iff b f s).mp hi
    refine ⟨⟨?_, ?_⟩, ⟨h3, h4⟩, (legalMoves_eq_true_iff b f s).mp hl⟩
    · intro hoob
      exact h1 ((piece_eq_undefined_iff b f hwf hnu).mpr hoob)
    · intro hoob
      exact h2 ((piece_eq_undefined_iff b s hwf hnu).mpr hoob)
  · intro ⟨⟨hf, hs⟩, ⟨h3, h4⟩, h5⟩
    have hi : illegalMoves b f s = false := by
      rw [illegalMoves_eq_false_iff]
      refine ⟨?_, ?_, h3, h4⟩
      · intro h
        exact hf ((piece_eq_undefined_iff b f hwf hnu).mp h)
      · intro h
        exact hs ((piece_eq_undefined_iff b s hwf hnu).mp h)
    rw [hi, (legalMoves_eq_true_iff b f s).mpr h5]
    rfl

/-- Witness for the amended C2 on a concrete valid move. -/
theorem canMove_iff_witness : canMove bCW ⟨0, 2⟩ ⟨1, 2⟩ = true :=
  (canMove_iff bCW ⟨0, 2⟩ ⟨1, 2⟩ (by decide) (by decide)).mpr
    ⟨⟨by decide, by decide⟩, ⟨by decide, by decide⟩, by decide⟩

theorem moveLoop_succ (mb rb : Board T) (effs : List (Effect T)) (n : Nat) :
    moveLoop mb rb effs (n + 1) =
      match anyMatching rb with
      | none => some ⟨rb, effs⟩
      | some pos =>
        let st := checkFor rb.boardState pos (effs, some [])
        let cleared := removeMatchesFrom rb.boardState (st.2.getD [])
        let refilled2 :=
          refillBoard { mb with boardState := cleared, sequenceGenerator := rb.sequenceGenerator }
        moveLoop mb refilled2 (st.1 ++ [.Refill]) n := rfl

theorem checkFor_snd_indep (g : Grid T) (p : Position) (e e' : List (Effect T))
    (m : Option (List Position)) : (checkFor g p (e, m)).2 = (checkFor g p (e', m)).2 := by
  unfold checkFor
  cases anyMatchingOn g p <;> rfl

theorem moveLoop_quiescent :
    ∀ (fuel : Nat) (mb rb : Board T) (effs : List (Effect T)) (r : MoveResult T),
    moveLoop mb rb effs fuel = some r →
    ∀ p ∈ positions r.board, anyMatchingOn r.board.boardState p = .None := by
  intro fuel
  induction fuel with
  | zero =>
    intro mb rb effs r h
    simp [moveLoop] at h
  | succ n ih =>
    intro mb rb effs r h p hp
    rw [moveLoop_succ] at h
    cases hm : anyMatching rb with
    | none =>
      rw [hm] at h
      have hr := Option.some.inj h
      subst hr
      unfold anyMatching at hm
      have := List.find?_eq_none.mp hm p hp
      simpa using this
    | some pos =>
      rw [hm] at h
      exact ih mb _ _ r h p hp

theorem moveLoop_terminates :
    ∀ (n : Nat) (mb rb : Board T) (effs : List (Effect T)),
    anyMatching ((cascadeStep mb)^[n] rb) = none →
    ∃ r, moveLoop mb rb effs (n + 1) = some r := by
  intro n
  induction n with
  | zero =>
    intro mb rb effs h
    simp only [Function.iterate_zero, id] at h
    exact ⟨⟨rb, effs⟩, by rw [moveLoop_succ, h]⟩
  | succ n ih =>
    intro mb rb effs h
    cases hm : anyMatching rb with
    | none => exact ⟨⟨rb, effs⟩, by rw [moveLoop_succ, hm]⟩
    | some pos =>
      have h' : anyMatching ((cascadeStep mb)^[n] (cascadeStep mb rb)) = none := by
        rw [← Function.iterate_succ_apply]
        exact h
      obtain ⟨r, hr⟩ :=
        ih mb (cascadeStep mb rb) ((checkFor rb.boardState pos (effs, some [])).1 ++ [.Refill]) h'
      refine ⟨r, ?_⟩
      rw [moveLoop_succ, hm]
      show moveLoop mb
          (refillBoard
            { mb with
              boardState :=
                removeMatchesFrom rb.boardState
                  ((checkFor rb.boardState pos (effs, some [])).2.getD []),
              sequenceGenerator := rb.sequenceGenerator })
          ((checkFor rb.boardState pos (effs, some [])).1 ++ [.Refill]) (n + 1) = some r
      rw [checkFor_snd_indep rb.boardState pos effs [] (some [])]
      have hcs : cascadeStep mb rb =
          refillBoard
            { mb with
              boardState :=
                removeMatchesFrom rb.boardState
                  ((checkFor rb.boardState pos ([], some [])).2.getD []),
              sequenceGenerator := rb.sequenceGenerator } := by
        unfold cascadeStep
        rw [hm]
      rw [← hcs]
      exact hr

theorem checkFor_isSome_of_match (g : Grid T) (p : Position)
    (st : List (Effect T) × Option (List Position)) (h : anyMatchingOn g p ≠ .None) :
    ((checkFor g p st).2).isSome = true := by
  obtain ⟨e, m⟩ := st
  unfold checkFor
  cases hm : anyMatchingOn g p
  · exact absurd hm h
  · cases m <;> rfl
  · cases m <;> rfl
  · rfl

theorem checkFor_isSome_preserved (g : Grid T) (p : Position)
    (st : List (Effect T) × Option (List Position)) (h : st.2.isSome = true) :
    ((checkFor g p st).2).isSome = true := by
  obtain ⟨e, m⟩ := st
  unfold checkFor
  cases anyMatchingOn g p
  · exact h
  · cases m <;> rfl
  · cases m <;> rfl
  · rfl

theorem movePhase1_isSome (b : Board T) (f s : Position) (h : canMove b f s = true) :
    ((movePhase1 b f s).2.2).isSome = true := by
  rw [canMove_eq_and] at h
  have hl : legalMoves b f s = true := by
    cases hle : legalMoves b f s
    · rw [hle] at h
      simp at h
    · rfl
  have hor := (legalMoves_eq_true_iff b f s).mp hl
  unfold movePhase1
  rcases hor with hf | hs
  · exact checkFor_isSome_preserved _ _ _ (checkFor_isSome_of_match _ _ _ hf)
  · exact checkFor_isSome_of_match _ _ _ hs

/-- Counterexample to C1 as stated: for a pair of positions with `canMove`
false, `move` returns (it is `some`), returns the input board unchanged, and
that board contains a position whose match check is not `None`. -/
theorem move_residual_match_counterexample :
    (move ⟨fun n => n + 1, 0⟩ bC1 ⟨0, 0⟩ ⟨0, 0⟩ 1).isSome = true ∧
    ((move ⟨fun n => n + 1, 0⟩ bC1 ⟨0, 0⟩ ⟨0, 0⟩ 1).map (fun r => r.board.boardState)).getD [] =
      bC1.boardState ∧
    (⟨0, 0⟩ : Position) ∈ positions bC1 ∧
    anyMatchingOn bC1.boardState ⟨0, 0⟩ ≠ MatchDir.None := by
  refine ⟨by decide, by decide, by decide, by decide⟩

/-- C1 amended.  Whenever the move is valid (`canMove` true) and the call runs
to completion, re-scanning every position of the returned board with the match
check yields `None`. -/
theorem move_quiescent (gen : Generator T) (b : Board T) (f s : Position) (fuel : Nat)
    (r : MoveResult T) (hcm : canMove b f s = true) (hret : move gen b f s fuel = some r) :
    ∀ p ∈ positions r.board, anyMatchingOn r.board.boardState p = .None := by
  unfold move at hret
  rw [hcm, if_neg (by simp)] at hret
  cases hps : (movePhase1 b f s).2.2 with
  | none =>
    rw [hps] at hret
    cases hret
  | some ms =>
    rw [hps] at hret
    exact moveLoop_quiescent fuel b _ _ r hret

/-- Witness for the amended C1: a concrete valid move that settles after one
refill, all positions of the result scanning as `None`. -/
theorem move_quiescent_witness :
    canMove bCW ⟨0, 2⟩ ⟨1, 2⟩ = true ∧
    ∀ p ∈ positions rC1w.board, anyMatchingOn rC1w.board.boardState p = MatchDir.None := by
  have hret : move ⟨fun n => n + 10, 0⟩ bCW ⟨0, 2⟩ ⟨1, 2⟩ 1 = some rC1w := rfl
  exact ⟨by decide, move_quiescent ⟨fun n => n + 10, 0⟩ bCW ⟨0, 2⟩ ⟨1, 2⟩ 1 rC1w (by decide) hret⟩

/-- C8.  The cascade loop of `move` introduces no infinite loop of its own:
whenever iterating the loop body eventually reaches a board with no matching
position (the generator's refills eventually quiesce), `move` runs to
completion on some finite fuel. -/
theorem move_cascade_terminates (gen : Generator T) (b : Board T) (f s : Position)
    (h : ∃ n, anyMatching ((cascadeStep b)^[n] (phase1Board b f s)) = none) :
    ∃ fuel r, move gen b f s fuel = some r := by
  by_cases hcm : canMove b f s = true
  · obtain ⟨n, hn⟩ := h
    obtain ⟨ms, hms⟩ := Option.isSome_iff_exists.mp (movePhase1_isSome b f s hcm)
    obtain ⟨r, hr⟩ :=
      moveLoop_terminates n b (phase1Board b f s) ((movePhase1 b f s).2.1 ++ [.Refill]) hn
    refine ⟨n + 1, r, ?_⟩
    unfold move
    rw [hcm, if_neg (by simp), hms]
    have hpb : phase1Board b f s =
        refillBoard { b with boardState := removeMatchesFrom (movePhase1 b f s).1 ms } := by
      unfold phase1Board
      rw [hms]
      rfl
    rw [hpb] at hr
    exact hr
  · have hcm' : canMove b f s = false := by
      cases hc : canMove b f s
      · rfl
      · exact absurd hc hcm
    exact ⟨0, ⟨b, []⟩, by simp [move, hcm']⟩

/-- Witness for C8: on a concrete valid move the cascade quiesces immediately
after the first refill (iteration count 0), so `move` returns. -/
theorem move_cascade_terminates_witness :
    ∃ fuel r, move ⟨fun n => n + 10, 0⟩ bCW ⟨0, 2⟩ ⟨1, 2⟩ fuel = some r :=
  move_cascade_terminates ⟨fun n => n + 10, 0⟩ bCW ⟨0, 2⟩ ⟨1, 2⟩ ⟨0, by decide⟩

/-- C4 exhibit.  On `bC4`, swapping (0,0) with (0,3) is a valid move whose
second position scores `Both`.  The two Match effects for it (horizontal run
first, then vertical run) are emitted before any Refill effect, but the
`Both` branch of `checkFor` OVERWRITES the accumulated removal list instead of
concatenating: the pending set holds only the second position's runs, and the
position (0,0) of the first emitted Match effect still holds its tile in the
immediately-cleared grid. -/
theorem checkFor_both_overwrite_bug :
    canMove bC4 ⟨0, 0⟩ ⟨0, 3⟩ = true ∧
    anyMatchingOn (movePhase1 bC4 ⟨0, 0⟩ ⟨0, 3⟩).1 ⟨0, 3⟩ = MatchDir.Both ∧
    (movePhase1 bC4 ⟨0, 0⟩ ⟨0, 3⟩).2.1 =
      [Effect.Match ⟨.val 1, [⟨0, 0⟩, ⟨0, 1⟩, ⟨0, 2⟩]⟩,
       Effect.Match ⟨.val 2, [⟨0, 3⟩, ⟨0, 4⟩, ⟨0, 5⟩]⟩,
       Effect.Match ⟨.val 2, [⟨0, 3⟩, ⟨1, 3⟩, ⟨2, 3⟩]⟩] ∧
    (movePhase1 bC4 ⟨0, 0⟩ ⟨0, 3⟩).2.2 =
      some [⟨0, 3⟩, ⟨0, 4⟩, ⟨0, 5⟩, ⟨0, 3⟩, ⟨1, 3⟩, ⟨2, 3⟩] ∧
    cellD (removeMatchesFrom (movePhase1 bC4 ⟨0, 0⟩ ⟨0, 3⟩).1
        (((movePhase1 bC4 ⟨0, 0⟩ ⟨0, 3⟩).2.2).getD [])) 0 0 = JSVal.val 1 := by
  refine ⟨by decide, by decide, by decide, by decide, by decide⟩

theorem jsEq_val_iff (x : JSVal T) (v : T) : jsEq x (.val v) = true ↔ x = .val v := by
  cases x <;> simp [jsEq]

theorem jsEq_val_false (x : JSVal T) (v : T) (h : x ≠ .val v) : jsEq x (.val v) = false := by
  cases hb : jsEq x (.val v)
  · rfl
  · exact absurd ((jsEq_val_iff x v).mp hb) h

theorem getPiece_val_bounds (g : Grid T) (p : Position) (v : T) (h : getPiece g p = .val v) :
    0 ≤ p.col ∧ p.col < (g.length : Int) ∧ 0 ≤ p.row ∧ p.row < ((g.headD []).length : Int) := by
  unfold getPiece at h
  split at h
  · cases h
  · rename_i hc
    push_neg at hc
    exact ⟨hc.1, hc.2.2.1, hc.2.1, hc.2.2.2⟩

theorem pos_eq (a b c d : Int) (h1 : a = c) (h2 : b = d) : (⟨a, b⟩ : Position) = ⟨c, d⟩ := by
  rw [h1, h2]

theorem checkNextIs_succ (g : Grid T) (pos dir : Position) (ref : JSVal T) (m : Nat) :
    checkNextIs g pos dir ref (m + 1) =
      if jsEq (getPiece g ⟨pos.row + dir.row, pos.col + dir.col⟩) ref = true then
        checkNextIs g ⟨pos.row + dir.row, pos.col + dir.col⟩ dir ref m
      else pos := rfl

theorem addNext_succ (g : Grid T) (curr dir : Position) (ref : JSVal T) (m : Nat) :
    addNext g curr dir ref (m + 1) =
      if jsEq (getPiece g ⟨curr.row + dir.row, curr.col + dir.col⟩) ref = true then
        curr :: addNext g ⟨curr.row + dir.row, curr.col + dir.col⟩ dir ref m
      else [curr] := rfl

theorem checkNextIs_west (g : Grid T) (v : T) (rr cL : Int) (len : Nat)
    (hcells : ∀ i : Nat, i < len → getPiece g ⟨rr, cL + i⟩ = .val v)
    (hleft : getPiece g ⟨rr, cL - 1⟩ ≠ .val v) :
    ∀ (k fuel : Nat), k < len → k + 1 ≤ fuel →
      checkNextIs g ⟨rr, cL + k⟩ ⟨0, -1⟩ (.val v) fuel = ⟨rr, cL⟩ := by
  intro k
  induction k with
  | zero =>
    intro fuel hk hf
    cases fuel with
    | zero => omega
    | succ m =>
      rw [checkNextIs_succ]
      rw [show (⟨rr + (0 : Int), cL + ((0 : Nat) : Int) + -1⟩ : Position) = ⟨rr, cL - 1⟩ from
        pos_eq _ _ _ _ (by ring) (by push_cast; ring)]
      rw [jsEq_val_false _ _ hleft]
      simp
  | succ k ih =>
    intro fuel hk hf
    cases fuel with
    | zero => omega
    | succ m =>
      rw [checkNextIs_succ]
      rw [show (⟨rr + (0 : Int), cL + ((k + 1 : Nat) : Int) + -1⟩ : Position) = ⟨rr, cL + k⟩ from
        pos_eq _ _ _ _ (by ring) (by push_cast; ring)]
      rw [hcells k (by omega), (jsEq_val_iff _ _).mpr rfl]
      simp only [if_true]
      exact ih m (by omega) (by omega)

theorem addNext_east (g : Grid T) (v : T) (rr cL : Int) (len : Nat)
    (hcells : ∀ i : Nat, i < len → getPiece g ⟨rr, cL + i⟩ = .val v)
    (hright : getPiece g ⟨rr, cL + len⟩ ≠ .val v) :
    ∀ (k j fuel : Nat), j + k + 1 = len → k + 1 ≤ fuel →
      addNext g ⟨rr, cL + j⟩ ⟨0, 1⟩ (.val v) fuel =
        (List.range (k + 1)).map (fun i : Nat => (⟨rr, cL + (j : Int) + (i : Int)⟩ : Position)) := by
  intro k
  induction k with
  | zero =>
    intro j fuel hlen hf
    cases fuel with
    | zero => omega
    | succ m =>
      rw [addNext_succ]
      rw [show (⟨rr + (0 : Int), cL + (j : Int) + 1⟩ : Position) = ⟨rr, cL + len⟩ from
        pos_eq _ _ _ _ (by ring) (by push_cast; omega)]
      rw [jsEq_val_false _ _ hright]
      simp [List.range_succ]
  | succ k ih =>
    intro j fuel hlen hf
    cases fuel with
    | zero => omega
    | succ m =>
      rw [addNext_succ]
      rw [show (⟨rr + (0 : Int), cL + (j : Int) + 1⟩ : Position) = ⟨rr, cL + ((j + 1 : Nat) : Int)⟩ from
        pos_eq _ _ _ _ (by ring) (by push_cast; ring)]
      rw [hcells (j + 1) (by omega), (jsEq_val_iff _ _).mpr rfl]
      simp only [if_true]
      rw [ih (j + 1) m (by omega) (by omega)]
      conv_rhs => rw [List.range_succ_eq_map]
      rw [List.map_cons, List.map_map]
      refine congrArg₂ List.cons ?_ ?_
      · exact pos_eq _ _ _ _ rfl (by push_cast; ring)
      · refine List.map_congr_left ?_
        intro i hi
        show (⟨rr, cL + ((j + 1 : Nat) : Int) + (i : Int)⟩ : Position) =
          ⟨rr, cL + (j : Int) + ((i + 1 : Nat) : Int)⟩
        exact pos_eq _ _ _ _ rfl (by push_cast; ring)

theorem checkNextIs_north (g : Grid T) (v : T) (cc rL : Int) (len : Nat)
    (hcells : ∀ i : Nat, i < len → getPiece g ⟨rL + i, cc⟩ = .val v)
    (htop : getPiece g ⟨rL - 1, cc⟩ ≠ .val v) :
    ∀ (k fuel : Nat), k < len → k + 1 ≤ fuel →
      checkNextIs g ⟨rL + k, cc⟩ ⟨-1, 0⟩ (.val v) fuel = ⟨rL, cc⟩ := by
  intro k
  induction k with
  | zero =>
    intro fuel hk hf
    cases fuel with
    | zero => omega
    | succ m =>
      rw [checkNextIs_succ]
      rw [show (⟨rL + ((0 : Nat) : Int) + -1, cc + (0 : Int)⟩ : Position) = ⟨rL - 1, cc⟩ from
        pos_eq _ _ _ _ (by push_cast; ring) (by ring)]
      rw [jsEq_val_false _ _ htop]
      simp
  | succ k ih =>
    intro fuel hk hf
    cases fuel with
    | zero => omega
    | succ m =>
      rw [checkNextIs_succ]
      rw [show (⟨rL + ((k + 1 : Nat) : Int) + -1, cc + (0 : Int)⟩ : Position) = ⟨rL + k, cc⟩ from
        pos_eq _ _ _ _ (by push_cast; ring) (by ring)]
      rw [hcells k (by omega), (jsEq_val_iff _ _).mpr rfl]
      simp only [if_true]
      exact ih m (by omega) (by omega)

theorem addNext_south (g : Grid T) (v : T) (cc rL : Int) (len : Nat)
    (hcells : ∀ i : Nat, i < len → getPiece g ⟨rL + i, cc⟩ = .val v)
    (hbot : getPiece g ⟨rL + len, cc⟩ ≠ .val v) :
    ∀ (k j fuel : Nat), j + k + 1 = len → k + 1 ≤ fuel →
      addNext g ⟨rL + j, cc⟩ ⟨1, 0⟩ (.val v) fuel =
        (List.range (k + 1)).map (fun i : Nat => (⟨rL + (j : Int) + (i : Int), cc⟩ : Position)) := by
  intro k
  induction k with
  | zero =>
    intro j fuel hlen hf
    cases fuel with
    | zero => omega
    | succ m =>
      rw [addNext_succ]
      rw [show (⟨rL + (j : Int) + 1, cc + (0 : Int)⟩ : Position) = ⟨rL + len, cc⟩ from
        pos_eq _ _ _ _ (by push_cast; omega) (by ring)]
      rw [jsEq_val_false _ _ hbot]
      simp [List.range_succ]
  | succ k ih =>
    intro j fuel hlen hf
    cases fuel with
    | zero => omega
    | succ m =>
      rw [addNext_succ]
      rw [show (⟨rL + (j : Int) + 1, cc + (0 : Int)⟩ : Position) = ⟨rL + ((j + 1 : Nat) : Int), cc⟩ from
        pos_eq _ _ _ _ (by push_cast; ring) (by ring)]
      rw [hcells (j + 1) (by omega), (jsEq_val_iff _ _).mpr rfl]
      simp only [if_true]
      rw [ih (j + 1) m (by omega) (by omega)]
      conv_rhs => rw [List.range_succ_eq_map]
      rw [List.map_cons, List.map_map]
      refine congrArg₂ List.cons ?_ ?_
      · exact pos_eq _ _ _ _ (by push_cast; ring) rfl
      · refine List.map_congr_left ?_
        intro i hi
        show (⟨rL + ((j + 1 : Nat) : Int) + (i : Int), cc⟩ : Position) =
          ⟨rL + (j : Int) + ((i + 1 : Nat) : Int), cc⟩
        exact pos_eq _ _ _ _ (by push_cast; ring) rfl

/-- C6.  For a reference position lying on a maximal run of `len ≥ 3` identical
tiles (cells `cL..cL+len-1` of the row, resp. `rL..rL+len-1` of the column,
hold the tile value and both neighbouring cells do not), `getMatchPositions`
returns exactly that maximal contiguous run in forward order (west to east,
resp. north to south). -/
theorem getMatchPositions_maximal_run :
    (∀ (g : Grid T) (p : Position) (v : T) (cL : Int) (len : Nat),
      3 ≤ len →
      (∀ i : Nat, i < len → getPiece g ⟨p.row, cL + i⟩ = .val v) →
      getPiece g ⟨p.row, cL - 1⟩ ≠ .val v →
      getPiece g ⟨p.row, cL + len⟩ ≠ .val v →
      cL ≤ p.col → p.col < cL + len →
      getMatchPositions g .Horizontal p = runListH p.row cL len) ∧
    (∀ (g : Grid T) (p : Position) (v : T) (rL : Int) (len : Nat),
      3 ≤ len →
      (∀ i : Nat, i < len → getPiece g ⟨rL + i, p.col⟩ = .val v) →
      getPiece g ⟨rL - 1, p.col⟩ ≠ .val v →
      getPiece g ⟨rL + len, p.col⟩ ≠ .val v →
      rL ≤ p.row → p.row < rL + len →
      getMatchPositions g .Vertical p = runListV p.col rL len) := by
  constructor
  · intro g p v cL len hlen hcells hleft hright hlo hhi
    have hwf : walkFuel g = g.length + (g.headD []).length + 2 := rfl
    set k : Nat := (p.col - cL).toNat with hkdef
    have hkc : (k : Int) = p.col - cL := Int.toNat_of_nonneg (by omega)
    have hklen : k < len := by omega
    have hpcol : p.col = cL + (k : Int) := by omega
    have hp : p = (⟨p.row, cL + (k : Int)⟩ : Position) := by
      have hpe : p = (⟨p.row, p.col⟩ : Position) := rfl
      rw [hpe, hpcol]
    have hcl0 : (0 : Int) ≤ cL := by
      have h0 := (getPiece_val_bounds g _ v (hcells 0 (by omega))).1
      simpa using h0
    have hlast : cL + ((len - 1 : Nat) : Int) < (g.length : Int) :=
      (getPiece_val_bounds g _ v (hcells (len - 1) (by omega))).2.1
    have hfuel1 : k + 1 ≤ walkFuel g := by rw [hwf]; omega
    have hfuel2 : (len - 1) + 1 ≤ walkFuel g := by rw [hwf]; omega
    have hgp : getPiece g p = .val v := by rw [hp]; exact hcells k hklen
    show addNext g
        (checkNextIs g p (directionToVector .Horizontal true) (getPiece g p) (walkFuel g))
        (directionToVector .Horizontal false) (getPiece g p) (walkFuel g) = runListH p.row cL len
    rw [show directionToVector Dir.Horizontal true = (⟨0, -1⟩ : Position) from rfl,
        show directionToVector Dir.Horizontal false = (⟨0, 1⟩ : Position) from rfl, hgp]
    conv_lhs => rw [hp]
    rw [checkNextIs_west g v p.row cL len hcells hleft k (walkFuel g) hklen hfuel1]
    rw [show (⟨p.row, cL⟩ : Position) = ⟨p.row, cL + ((0 : Nat) : Int)⟩ from
      pos_eq _ _ _ _ rfl (by simp)]
    rw [addNext_east g v p.row cL len hcells hright (len - 1) 0 (walkFuel g) (by omega) hfuel2]
    unfold runListH
    rw [show (len - 1) + 1 = len by omega]
    refine List.map_congr_left ?_
    intro i hi
    exact pos_eq _ _ _ _ rfl (by push_cast; ring)
  · intro g p v rL len hlen hcells htop hbot hlo hhi
    have hwf : walkFuel g = g.length + (g.headD []).length + 2 := rfl
    set k : Nat := (p.row - rL).toNat with hkdef
    have hkc : (k : Int) = p.row - rL := Int.toNat_of_nonneg (by omega)
    have hklen : k < len := by omega
    have hprow : p.row = rL + (k : Int) := by omega
    have hp : p = (⟨rL + (k : Int), p.col⟩ : Position) := by
      have hpe : p = (⟨p.row, p.col⟩ : Position) := rfl
      rw [hpe, hprow]
    have hrl0 : (0 : Int) ≤ rL := by
      have h0 := (getPiece_val_bounds g _ v (hcells 0 (by omega))).2.2.1
      simpa using h0
    have hlast : rL + ((len - 1 : Nat) : Int) < ((g.headD []).length : Int) :=
      (getPiece_val_bounds g _ v (hcells (len - 1) (by omega))).2.2.2
    have hfuel1 : k + 1 ≤ walkFuel g := by rw [hwf]; omega
    have hfuel2 : (len - 1) + 1 ≤ walkFuel g := by rw [hwf]; omega
    have hgp : getPiece g p = .val v := by rw [hp]; exact hcells k hklen
    show addNext g
        (checkNextIs g p (directionToVector .Vertical true) (getPiece g p) (walkFuel g))
        (directionToVector .Vertical false) (getPiece g p) (walkFuel g) = runListV p.col rL len
    rw [show directionToVector Dir.Vertical true = (⟨-1, 0⟩ : Position) from rfl,
        show directionToVector Dir.Vertical false = (⟨1, 0⟩ : Position) from rfl, hgp]
    conv_lhs => rw [hp]
    rw [checkNextIs_north g v p.col rL len hcells htop k (walkFuel g) hklen hfuel1]
    rw [show (⟨rL, p.col⟩ : Position) = ⟨rL + ((0 : Nat) : Int), p.col⟩ from
      pos_eq _ _ _ _ (by simp) rfl]
    rw [addNext_south g v p.col rL len hcells hbot (len - 1) 0 (walkFuel g) (by omega) hfuel2]
    unfold runListV
    rw [show (len - 1) + 1 = len by omega]
    refine List.map_congr_left ?_
    intro i hi
    exact pos_eq _ _ _ _ (by push_cast; ring) rfl

/-- Witness for C6: the spec's concrete example, a horizontal run of exactly
three identical tiles on row 2, columns 1 to 3. -/
theorem getMatchPositions_maximal_run_witness :
    getMatchPositions gC6 Dir.Horizontal ⟨2, 2⟩ = [⟨2, 1⟩, ⟨2, 2⟩, ⟨2, 3⟩] := by
  have h := (getMatchPositions_maximal_run (T := Nat)).1 gC6 ⟨2, 2⟩ 5 1 3 (by decide)
    (by decide) (by decide) (by decide) (by decide) (by decide)
  rw [h]
  decide

theorem getD_set_self {α : Type} (l : List α) (i : Nat) (v d : α) (h : i < l.length) :
    (l.set i v).getD i d = v := by
  induction l generalizing i with
  | nil => simp at h
  | cons x xs ih =>
    cases i with
    | zero => simp
    | succ j => simpa using ih j (by simpa using h)

theorem getD_set_ne {α : Type} (l : List α) (i j : Nat) (v d : α) (h : i ≠ j) :
    (l.set i v).getD j d = l.getD j d := by
  induction l generalizing i j with
  | nil => simp
  | cons x xs ih =>
    cases i with
    | zero =>
      cases j with
      | zero => exact absurd rfl h
      | succ j' => simp
    | succ i' =>
      cases j with
      | zero => simp
      | succ j' => simpa using ih i' j' (by omega)

theorem set_getD_self {α : Type} (l : List α) (i : Nat) (d : α) (h : i < l.length) :
    l.set i (l.getD i d) = l := by
  induction l generalizing i with
  | nil => rfl
  | cons x xs ih =>
    cases i with
    | zero => simp
    | succ j =>
      have hj : j < xs.length := by simpa using h
      simpa using ih j hj

theorem exists_getD_of_mem {α : Type} (l : List α) (y d : α) (hy : y ∈ l) :
    ∃ n : Nat, n < l.length ∧ l.getD n d = y := by
  obtain ⟨i, hi, hg⟩ := List.mem_iff_getElem.mp hy
  exact ⟨i, hi, by rw [List.getD_eq_getElem l d hi]; exact hg⟩

theorem truthy_ne_null (x : JSVal T) (h : truthy x = true) : x ≠ JSVal.null := by
  intro he
  subst he
  simp [truthy] at h

theorem cellsNullOrTruthy_null_of_not_truthy (c : List (JSVal T)) (hc : cellsNullOrTruthy c)
    (i : Nat) (hi : i < c.length) (ht : truthy (c.getD i .undefinedV) = false) :
    c.getD i .undefinedV = JSVal.null := by
  have hmem := getD_mem_of_lt c i .undefinedV hi
  rcases hc _ hmem with h | h
  · exact h
  · rw [h] at ht
    exact absurd ht (by simp)

theorem gravityFindRow_none (c : List (JSVal T)) :
    ∀ j : Nat, gravityFindRow c j = none → ∀ i : Nat, i ≤ j →
      truthy (c.getD i .undefinedV) = false := by
  intro j
  induction j with
  | zero =>
    intro h i hi
    unfold gravityFindRow at h
    split at h
    · cases h
    · rename_i hcond
      have hi0 : i = 0 := by omega
      subst hi0
      simpa using hcond
  | succ j ih =>
    intro h i hi
    unfold gravityFindRow at h
    split at h
    · cases h
    · rename_i hcond
      rcases Nat.lt_or_ge i (j + 1) with hlt | hge
      · exact ih h i (by omega)
      · have hi1 : i = j + 1 := by omega
        subst hi1
        simpa using hcond

theorem gravityFindRow_some (c : List (JSVal T)) :
    ∀ (js j : Nat), gravityFindRow c js = some j →
      truthy (c.getD j .undefinedV) = true ∧ j ≤ js ∧
      ∀ i : Nat, j < i → i ≤ js → truthy (c.getD i .undefinedV) = false := by
  intro js
  induction js with
  | zero =>
    intro j h
    unfold gravityFindRow at h
    split at h
    · rename_i hcond
      obtain rfl : (0 : Nat) = j := Option.some.inj h
      exact ⟨hcond, Nat.le_refl 0, fun i h1 h2 => absurd h2 (by omega)⟩
    · cases h
  | succ js ih =>
    intro j h
    unfold gravityFindRow at h
    split at h
    · rename_i hcond
      obtain rfl : js + 1 = j := Option.some.inj h
      exact ⟨hcond, Nat.le_refl _, fun i h1 h2 => absurd h1 (by omega)⟩
    · rename_i hcond
      obtain ⟨ht, hle, hmax⟩ := ih j h
      refine ⟨ht, by omega, ?_⟩
      intro i h1 h2
      rcases Nat.lt_or_ge i (js + 1) with hlt | hge
      · exact hmax i h1 (by omega)
      · have hi1 : i = js + 1 := by omega
        subst hi1
        simpa using hcond

theorem filter_drop_of_null_prefix :
    ∀ (xs : List (JSVal T)) (R : Nat), R < xs.length →
      (∀ i : Nat, i ≤ R → xs.getD i .undefinedV = JSVal.null) →
      xs.filter truthy = (xs.drop (R + 1)).filter truthy := by
  intro xs
  induction xs with
  | nil => intro R h; simp at h
  | cons y ys ih =>
    intro R hR hnull
    have hy : y = JSVal.null := by simpa using hnull 0 (by omega)
    cases R with
    | zero => simp [hy, List.filter_cons, truthy]
    | succ R' =>
      have hrec : ys.filter truthy = (ys.drop (R' + 1)).filter truthy :=
        ih R' (by simpa using hR) (fun i hi => by simpa using hnull (i + 1) (by omega))
      simpa [hy, List.filter_cons, truthy] using hrec

theorem filter_set_of_null_prefix :
    ∀ (xs : List (JSVal T)) (R : Nat) (t : JSVal T), R < xs.length →
      (∀ i : Nat, i ≤ R → xs.getD i .undefinedV = JSVal.null) →
      (xs.set R t).filter truthy = List.filter truthy (t :: xs.drop (R + 1)) := by
  intro xs
  induction xs with
  | nil => intro R t h; simp at h
  | cons y ys ih =>
    intro R t hR hnull
    have hy : y = JSVal.null := by simpa using hnull 0 (by omega)
    cases R with
    | zero => simp
    | succ R' =>
      have hrec := ih R' t (by simpa using hR) (fun i hi => by simpa using hnull (i + 1) (by omega))
      simpa [hy, List.filter_cons, truthy] using hrec

theorem move_filter :
    ∀ (c : List (JSVal T)) (j R : Nat), j < R → R < c.length →
      c.getD R .undefinedV = JSVal.null → truthy (c.getD j .undefinedV) = true →
      (∀ i : Nat, j < i → i < R → c.getD i .undefinedV = JSVal.null) →
      ((c.set R (c.getD j .undefinedV)).set j JSVal.null).filter truthy = c.filter truthy := by
  intro c
  induction c with
  | nil => intro j R h1 h2; simp at h2
  | cons x xs ih =>
    intro j R hjR hR hRnull hjt hmid
    cases j with
    | zero =>
      cases R with
      | zero => omega
      | succ R' =>
        have hxt : truthy x = true := by simpa using hjt
        have hxsnull : ∀ i : Nat, i ≤ R' → xs.getD i .undefinedV = JSVal.null := by
          intro i hi
          rcases Nat.lt_or_ge i R' with hlt | hge
          · simpa using hmid (i + 1) (by omega) (by omega)
          · have hie : i = R' := by omega
            subst hie
            simpa using hRnull
        have hRlen : R' < xs.length := by simpa using hR
        have h1 := filter_set_of_null_prefix xs R' x hRlen hxsnull
        have h2 := filter_drop_of_null_prefix xs R' hRlen hxsnull
        simp [List.filter_cons, truthy, hxt, h1, h2]
    | succ j' =>
      cases R with
      | zero => omega
      | succ R' =>
        have hih := ih j' R' (by omega) (by simpa using hR) (by simpa using hRnull)
          (by simpa using hjt)
          (fun i h1 h2 => by simpa using hmid (i + 1) (by omega) (by omega))
        show List.filter truthy
            (x :: (xs.set R' (xs.getD j' JSVal.undefinedV)).set j' JSVal.null) =
          List.filter truthy (x :: xs)
        rw [List.filter_cons, List.filter_cons, hih]

theorem gravityColStep_spec (c : List (JSVal T)) (R : Nat) (hc : cellsNullOrTruthy c)
    (hR1 : 1 ≤ R) (hRlen : R < c.length) (hinv : nullsAbove c R) :
    cellsNullOrTruthy (gravityColStep R c) ∧
    (gravityColStep R c).length = c.length ∧
    (gravityColStep R c).filter truthy = c.filter truthy ∧
    nullsAbove (gravityColStep R c) (R - 1) := by
  unfold gravityColStep
  split
  · rename_i ht
    refine ⟨hc, rfl, rfl, ?_⟩
    intro i hi hilen hnull j hj
    rcases Nat.lt_or_ge R i with hlt | hge
    · exact hinv i hlt hilen hnull j hj
    · have hie : i = R := by omega
      subst hie
      rw [hnull] at ht
      exact absurd ht (by simp [truthy])
  · rename_i ht
    simp only [Bool.not_eq_true] at ht
    split
    · rename_i hfind
      have hall := gravityFindRow_none c (R - 1) hfind
      refine ⟨hc, rfl, rfl, ?_⟩
      intro i hi hilen hnull j hj
      rcases Nat.lt_or_ge R i with hlt | hge
      · exact hinv i hlt hilen hnull j hj
      · have hie : i = R := by omega
        subst hie
        rcases Nat.lt_or_ge j i with hjlt | hjge
        · exact cellsNullOrTruthy_null_of_not_truthy c hc j (by omega) (hall j (by omega))
        · have hje : j = i := by omega
          subst hje
          exact hnull
    · rename_i jid hfind
      obtain ⟨hjt, hjle, hjmax⟩ := gravityFindRow_some c (R - 1) jid hfind
      have hjR : jid < R := by omega
      have hcRnull : c.getD R .undefinedV = JSVal.null :=
        cellsNullOrTruthy_null_of_not_truthy c hc R hRlen ht
      have hmidnull : ∀ i : Nat, jid < i → i < R → c.getD i .undefinedV = JSVal.null := by
        intro i h1 h2
        exact cellsNullOrTruthy_null_of_not_truthy c hc i (by omega) (hjmax i h1 (by omega))
      have hlen2 : ((c.set R (c.getD jid .undefinedV)).set jid JSVal.null).length = c.length := by
        simp
      refine ⟨?_, hlen2, move_filter c jid R hjR hRlen hcRnull hjt hmidnull, ?_⟩
      · intro x hx
        rcases List.mem_or_eq_of_mem_set hx with hx1 | hx2
        · rcases List.mem_or_eq_of_mem_set hx1 with hx3 | hx4
          · exact hc x hx3
          · subst hx4
            exact hc _ (getD_mem_of_lt c jid .undefinedV (by omega))
        · subst hx2
          exact Or.inl rfl
      · intro i hi hilen hnull j hj
        exfalso
        have hstep1 : ((c.set R (c.getD jid .undefinedV)).set jid JSVal.null).getD i .undefinedV
            = (c.set R (c.getD jid .undefinedV)).getD i .undefinedV :=
          getD_set_ne _ jid i _ _ (by omega)
        rcases Nat.eq_or_lt_of_le (show R ≤ i by omega) with hiR' | hiR'
        · subst hiR'
          rw [hstep1, getD_set_self _ R _ _ hRlen] at hnull
          exact truthy_ne_null _ hjt hnull
        · rw [hstep1, getD_set_ne _ R i _ _ (by omega)] at hnull
          have hilen' : i < c.length := by
            rw [hlen2] at hilen
            exact hilen
          have hnj := hinv i hiR' hilen' hnull jid (by omega)
          rw [hnj] at hjt
          exact absurd hjt (by simp [truthy])

theorem colGravityAux_spec :
    ∀ (r : Nat) (c : List (JSVal T)), cellsNullOrTruthy c → r < c.length → nullsAbove c r →
      cellsNullOrTruthy (colGravityAux c r) ∧
      (colGravityAux c r).length = c.length ∧
      (colGravityAux c r).filter truthy = c.filter truthy ∧
      nullsAbove (colGravityAux c r) 0 := by
  intro r
  induction r with
  | zero =>
    intro c hc hr hinv
    exact ⟨hc, rfl, rfl, hinv⟩
  | succ r ih =>
    intro c hc hr hinv
    obtain ⟨h1, h2, h3, h4⟩ := gravityColStep_spec c (r + 1) hc (by omega) hr hinv
    have h4' : nullsAbove (gravityColStep (r + 1) c) r := by simpa using h4
    obtain ⟨g1, g2, g3, g4⟩ := ih (gravityColStep (r + 1) c) h1 (by omega) h4'
    have hunfold : colGravityAux c (r + 1) = colGravityAux (gravityColStep (r + 1) c) r := rfl
    exact ⟨by rw [hunfold]; exact g1, by rw [hunfold, g2, h2], by rw [hunfold, g3, h3],
      by rw [hunfold]; exact g4⟩

theorem shape_of_nullsAbove :
    ∀ (c : List (JSVal T)), cellsNullOrTruthy c → nullsAbove c 0 →
      c = List.replicate (c.length - (c.filter truthy).length) JSVal.null ++
        c.filter truthy := by
  intro c
  induction c with
  | nil => intro _ _; rfl
  | cons x xs ih =>
    intro hc hinv
    rcases hc x (by simp) with hxnull | hxt
    · subst hxnull
      have hxs_inv : nullsAbove xs 0 := by
        intro i hi hilen hnull j hj
        have hp := hinv (i + 1) (by omega) (by simpa using Nat.succ_lt_succ hilen)
          (by simpa using hnull) (j + 1) (by omega)
        simpa using hp
      have hxs_c : cellsNullOrTruthy xs := fun y hy => hc y (by simp [hy])
      have hrec := ih hxs_c hxs_inv
      have hflt : (JSVal.null :: xs).filter truthy = xs.filter truthy := by
        simp [List.filter_cons, truthy]
      have htle : (xs.filter truthy).length ≤ xs.length := List.length_filter_le _ _
      rw [hflt]
      have harith : (JSVal.null :: xs).length - (xs.filter truthy).length
          = (xs.length - (xs.filter truthy).length) + 1 := by
        simp only [List.length_cons]
        omega
      rw [harith, List.replicate_succ, List.cons_append]
      exact congrArg (JSVal.null :: ·) hrec
    · have hxs_all : ∀ y ∈ xs, truthy y = true := by
        intro y hy
        by_contra hyt
        have hynull : y = JSVal.null := by
          rcases hc y (by simp [hy]) with h | h
          · exact h
          · exact absurd h hyt
        obtain ⟨n, hn, hgy⟩ := exists_getD_of_mem xs y JSVal.undefinedV hy
        have hparent : (x :: xs).getD (n + 1) JSVal.undefinedV = JSVal.null := by
          rw [List.getD_cons_succ, hgy]
          exact hynull
        have h0 := hinv (n + 1) (by omega) (by simpa using Nat.succ_lt_succ hn) hparent 0
          (by omega)
        rw [List.getD_cons_zero] at h0
        exact truthy_ne_null x hxt h0
      have hall : ∀ y ∈ (x :: xs), truthy y = true := by
        intro y hy
        rcases List.mem_cons.mp hy with hy1 | hy2
        · subst hy1
          exact hxt
        · exact hxs_all y hy2
      have hfe : (x :: xs).filter truthy = x :: xs := List.filter_eq_self.mpr hall
      rw [hfe]
      simp

theorem colGravity_rows_eq_aux :
    ∀ (r : Nat) (c : List (JSVal T)),
      (((List.range r).reverse).map (· + 1)).foldl (fun c row => gravityColStep row c) c
        = colGravityAux c r := by
  intro r
  induction r with
  | zero => intro c; rfl
  | succ r ih =>
    intro c
    rw [List.range_succ, List.reverse_append]
    simp only [List.reverse_cons, List.reverse_nil, List.nil_append, List.singleton_append,
      List.map_cons, List.foldl_cons]
    exact ih (gravityColStep (r + 1) c)

theorem getD_append_length {α : Type} :
    ∀ (done : List α) (x : α) (xs : List α) (d : α),
      (done ++ x :: xs).getD done.length d = x := by
  intro done
  induction done with
  | nil => intro x xs d; rfl
  | cons y ys ih => intro x xs d; simpa using ih x xs d

theorem set_append_length {α : Type} :
    ∀ (done : List α) (x v : α) (xs : List α),
      (done ++ x :: xs).set done.length v = done ++ v :: xs := by
  intro done
  induction done with
  | nil => intro x v xs; rfl
  | cons y ys ih => intro x v xs; simp [ih]

theorem foldl_set_eq_map {α : Type} (f : α → α) (d : α) :
    ∀ (todo done : List α),
      (List.range' done.length todo.length).foldl
        (fun acc i => acc.set i (f (acc.getD i d))) (done ++ todo) = done ++ todo.map f := by
  intro todo
  induction todo with
  | nil => intro done; simp
  | cons x xs ih =>
    intro done
    simp only [List.length_cons, List.range'_succ, List.foldl_cons]
    rw [getD_append_length, set_append_length]
    have hrec := ih (done ++ [f x])
    simp only [List.length_append, List.length_cons, List.length_nil, List.append_assoc,
      List.singleton_append, List.map_cons] at hrec ⊢
    simpa using hrec

theorem foldl_set_range_eq_map {α : Type} (f : α → α) (d : α) (l : List α) :
    (List.range l.length).foldl (fun acc i => acc.set i (f (acc.getD i d))) l = l.map f := by
  have h := foldl_set_eq_map f d l []
  simpa [List.range_eq_range'] using h

theorem gravityRowPass_eq_map (g : Grid T) (row w : Nat) (hw : g.length = w) :
    gravityRowPass g row w = g.map (gravityColStep row) := by
  unfold gravityRowPass
  rw [← hw]
  exact foldl_set_range_eq_map (gravityColStep row) [] g

theorem gravityRows_eq_map (w : Nat) :
    ∀ (rows : List Nat) (g : Grid T), g.length = w →
      rows.foldl (fun acc row => gravityRowPass acc row w) g
        = g.map (fun c => rows.foldl (fun c r => gravityColStep r c) c) := by
  intro rows
  induction rows with
  | nil => intro g hw; simp
  | cons r rs ih =>
    intro g hw
    simp only [List.foldl_cons]
    rw [gravityRowPass_eq_map g r w hw, ih (g.map (gravityColStep r)) (by simpa using hw),
      List.map_map]
    rfl

theorem gravityPass_eq_map_compact (g : Grid T) (w h : Nat) (hw : g.length = w)
    (hcols : ∀ c ∈ g, c.length = h) (hnt : nullOrTruthy g) :
    gravityPass g w h = g.map compactColumn := by
  unfold gravityPass
  rw [gravityRows_eq_map w _ g hw]
  refine List.map_congr_left ?_
  intro c hcmem
  rw [colGravity_rows_eq_aux (h - 1) c]
  rcases Nat.eq_zero_or_pos h with h0 | hpos
  · subst h0
    have hc0 : c.length = 0 := hcols c hcmem
    have hcnil : c = [] := List.eq_nil_of_length_eq_zero hc0
    subst hcnil
    rfl
  · have hlen : c.length = h := hcols c hcmem
    obtain ⟨s1, s2, s3, s4⟩ := colGravityAux_spec (h - 1) c (hnt c hcmem) (by omega)
      (by
        intro i hi hilen hnull j hj
        rw [hlen] at hilen
        omega)
    have hshape := shape_of_nullsAbove _ s1 s4
    rw [s2, s3] at hshape
    exact hshape

theorem isVal_of_truthy (x : JSVal T) (h : truthy x = true) : isVal x = true := by
  cases x <;> simp_all [truthy, isVal]

theorem compactColumn_length (c : List (JSVal T)) : (compactColumn c).length = c.length := by
  unfold compactColumn
  have hle := List.length_filter_le truthy c
  simp only [List.length_append, List.length_replicate]
  omega

theorem cellD_setCellNat_ne (g : Grid T) (c r c' r' : Nat) (v : JSVal T)
    (h : ¬(c = c' ∧ r = r')) : cellD (setCellNat g c r v) c' r' = cellD g c' r' := by
  unfold setCellNat cellD
  rcases Decidable.em (c = c') with hcc | hcc
  · subst hcc
    have hr : r ≠ r' := by tauto
    rcases Nat.lt_or_ge c g.length with hlt | hge
    · rw [getD_set_self g c _ [] hlt, getD_set_ne _ r r' _ _ hr]
    · rw [List.set_eq_of_length_le hge]
  · rw [getD_set_ne _ c c' _ _ hcc]

theorem cellD_setCellNat_same (g : Grid T) (c r : Nat) (v : JSVal T)
    (hc : c < g.length) (hr : r < (g.getD c []).length) :
    cellD (setCellNat g c r v) c r = v := by
  unfold setCellNat cellD
  rw [getD_set_self g c _ [] hc, getD_set_self _ r v _ hr]

theorem refillCellStep_cell_ne (st : Grid T × Generator T) (c r c' r' : Nat)
    (h : ¬(c = c' ∧ r = r')) :
    cellD (refillCellStep st c r).1 c' r' = cellD st.1 c' r' := by
  unfold refillCellStep
  split
  · rfl
  · exact cellD_setCellNat_ne st.1 c r c' r' _ h

theorem refillCellStep_isVal_preserved (st : Grid T × Generator T) (c r c' r' : Nat)
    (h : isVal (cellD st.1 c' r') = true) :
    isVal (cellD (refillCellStep st c r).1 c' r') = true := by
  rcases Decidable.em (c = c' ∧ r = r') with he | he
  · obtain ⟨rfl, rfl⟩ := he
    unfold refillCellStep
    split
    · exact h
    · rcases Nat.lt_or_ge c st.1.length with hlt | hge
      · rcases Nat.lt_or_ge r (st.1.getD c []).length with hrlt | hrge
        · rw [cellD_setCellNat_same st.1 c r _ hlt hrlt]
          rfl
        · have hnoop : setCellNat st.1 c r (JSVal.val (Generator.next st.2).1) = st.1 := by
            unfold setCellNat
            rw [List.set_eq_of_length_le hrge, set_getD_self st.1 c [] hlt]
          show isVal (cellD (setCellNat st.1 c r (JSVal.val (Generator.next st.2).1)) c r) = true
          rw [hnoop]
          exact h
      · unfold setCellNat
        rw [List.set_eq_of_length_le hge]
        exact h
  · rw [refillCellStep_cell_ne st c r c' r' he]
    exact h

theorem refillCellStep_establish (st : Grid T × Generator T) (c r : Nat)
    (hc : c < st.1.length) (hr : r < (st.1.getD c []).length) :
    isVal (cellD (refillCellStep st c r).1 c r) = true := by
  unfold refillCellStep
  split
  · rename_i ht
    exact isVal_of_truthy _ ht
  · rw [cellD_setCellNat_same st.1 c r _ hc hr]
    rfl

theorem refillCellStep_dims (st : Grid T × Generator T) (c r : Nat) (w h : Nat)
    (hw : st.1.length = w) (hcols : ∀ col ∈ st.1, col.length = h) :
    (refillCellStep st c r).1.length = w ∧
    ∀ col ∈ (refillCellStep st c r).1, col.length = h := by
  unfold refillCellStep
  split
  · exact ⟨hw, hcols⟩
  · unfold setCellNat
    rcases Nat.lt_or_ge c st.1.length with hlt | hge
    · refine ⟨by simpa using hw, ?_⟩
      intro col hcol
      rcases List.mem_or_eq_of_mem_set hcol with h1 | h2
      · exact hcols col h1
      · subst h2
        simpa using hcols _ (getD_mem_of_lt st.1 c [] hlt)
    · rw [List.set_eq_of_length_le hge]
      exact ⟨hw, hcols⟩

theorem foldl_preserve {σ α : Type} (P : σ → Prop) (step : σ → α → σ)
    (hstep : ∀ s a, P s → P (step s a)) :
    ∀ (l : List α) (s : σ), P s → P (l.foldl step s) := by
  intro l
  induction l with
  | nil => intro s h; exact h
  | cons a as ih => intro s h; exact ih (step s a) (hstep s a h)

theorem foldl_establish {σ α : Type} (P Q : σ → Prop) (step : σ → α → σ) (a₀ : α)
    (hq : ∀ s a, Q s → Q (step s a))
    (hp : ∀ s a, P s → P (step s a))
    (hest : ∀ s, Q s → P (step s a₀)) :
    ∀ (l : List α) (s : σ), a₀ ∈ l → Q s → P (l.foldl step s) := by
  intro l s hmem hQ
  obtain ⟨l1, l2, rfl⟩ := List.append_of_mem hmem
  rw [List.foldl_append]
  simp only [List.foldl_cons]
  have hQ1 : Q (l1.foldl step s) := foldl_preserve Q step hq l1 s hQ
  exact foldl_preserve P step hp l2 _ (hest _ hQ1)

theorem foldl_fixed {σ α : Type} (step : σ → α → σ) (s : σ) :
    ∀ (l : List α), (∀ a ∈ l, step s a = s) → l.foldl step s = s := by
  intro l
  induction l with
  | nil => intro _; rfl
  | cons a as ih =>
    intro h
    simp only [List.foldl_cons]
    rw [h a (by simp)]
    exact ih (fun a' ha' => h a' (by simp [ha']))

theorem refillPass_dims (g : Grid T) (gen : Generator T) (w h : Nat)
    (hw : g.length = w) (hcols : ∀ c ∈ g, c.length = h) :
    (refillPass g gen w h).1.length = w ∧
    ∀ c ∈ (refillPass g gen w h).1, c.length = h := by
  unfold refillPass
  exact foldl_preserve
    (fun st => st.1.length = w ∧ ∀ col ∈ st.1, col.length = h)
    (fun st row => (List.range w).foldl (fun st col => refillCellStep st col row) st)
    (fun st row hq =>
      foldl_preserve (fun st => st.1.length = w ∧ ∀ col ∈ st.1, col.length = h)
        (fun st col => refillCellStep st col row)
        (fun st col hq => refillCellStep_dims st col row w h hq.1 hq.2) _ st hq)
    _ (g, gen) ⟨hw, hcols⟩

theorem refillPass_isVal (g : Grid T) (gen : Generator T) (w h : Nat)
    (hw : g.length = w) (hcols : ∀ c ∈ g, c.length = h) :
    ∀ c₀ r₀ : Nat, c₀ < w → r₀ < h →
      isVal (cellD (refillPass g gen w h).1 c₀ r₀) = true := by
  intro c₀ r₀ hc₀ hr₀
  unfold refillPass
  refine foldl_establish
    (fun st => isVal (cellD st.1 c₀ r₀) = true)
    (fun st => st.1.length = w ∧ ∀ col ∈ st.1, col.length = h)
    (fun st row => (List.range w).foldl (fun st col => refillCellStep st col row) st)
    r₀
    (fun st row hq =>
      foldl_preserve (fun st => st.1.length = w ∧ ∀ col ∈ st.1, col.length = h)
        (fun st col => refillCellStep st col row)
        (fun st col hq => refillCellStep_dims st col row w h hq.1 hq.2) _ st hq)
    (fun st row hp =>
      foldl_preserve (fun st => isVal (cellD st.1 c₀ r₀) = true)
        (fun st col => refillCellStep st col row)
        (fun st col hp => refillCellStep_isVal_preserved st col row c₀ r₀ hp) _ st hp)
    (fun st hq => ?_)
    _ (g, gen) (List.mem_reverse.mpr (List.mem_range.mpr hr₀)) ⟨hw, hcols⟩
  refine foldl_establish
    (fun st => isVal (cellD st.1 c₀ r₀) = true)
    (fun st => st.1.length = w ∧ ∀ col ∈ st.1, col.length = h)
    (fun st col => refillCellStep st col r₀)
    c₀
    (fun st col hq => refillCellStep_dims st col r₀ w h hq.1 hq.2)
    (fun st col hp => refillCellStep_isVal_preserved st col r₀ c₀ r₀ hp)
    (fun st hq => refillCellStep_establish st c₀ r₀ (by omega)
      (by
        rw [hq.2 _ (getD_mem_of_lt st.1 c₀ [] (by omega))]
        exact hr₀))
    _ st (List.mem_range.mpr hc₀) hq

theorem refillPass_preserves_truthy (g : Grid T) (gen : Generator T) (w h : Nat)
    (c₀ r₀ : Nat) (ht : truthy (cellD g c₀ r₀) = true) :
    cellD (refillPass g gen w h).1 c₀ r₀ = cellD g c₀ r₀ := by
  unfold refillPass
  have hstep : ∀ (st : Grid T × Generator T) (c r : Nat),
      cellD st.1 c₀ r₀ = cellD g c₀ r₀ →
      cellD (refillCellStep st c r).1 c₀ r₀ = cellD g c₀ r₀ := by
    intro st c r hp
    rcases Decidable.em (c = c₀ ∧ r = r₀) with he | he
    · obtain ⟨rfl, rfl⟩ := he
      unfold refillCellStep
      split
      · exact hp
      · rename_i hguard
        rw [hp] at hguard
        exact absurd ht hguard
    · rw [refillCellStep_cell_ne st c r c₀ r₀ he]
      exact hp
  exact foldl_preserve
    (fun st => cellD st.1 c₀ r₀ = cellD g c₀ r₀)
    (fun st row => (List.range w).foldl (fun st col => refillCellStep st col row) st)
    (fun st row hp =>
      foldl_preserve (fun st => cellD st.1 c₀ r₀ = cellD g c₀ r₀)
        (fun st col => refillCellStep st col row)
        (fun st col hp => hstep st col row hp) _ st hp)
    _ (g, gen) rfl

theorem refillPass_id (g : Grid T) (gen : Generator T) (w h : Nat)
    (hw : g.length = w) (hcols : ∀ c ∈ g, c.length = h) (hat : allTruthy g) :
    refillPass g gen w h = (g, gen) := by
  unfold refillPass
  apply foldl_fixed
  intro row hrow
  apply foldl_fixed
  intro col hcol
  have hc : col < g.length := by
    rw [hw]
    exact List.mem_range.mp hcol
  have hr : row < (g.getD col []).length := by
    rw [hcols _ (getD_mem_of_lt g col [] hc)]
    exact List.mem_range.mp (List.mem_reverse.mp hrow)
  have htr : truthy (cellD (g, gen).1 col row) = true := by
    show truthy ((g.getD col []).getD row JSVal.undefinedV) = true
    exact hat _ (getD_mem_of_lt g col [] hc) _ (getD_mem_of_lt (g.getD col []) row JSVal.undefinedV hr)
  unfold refillCellStep
  rw [if_pos htr]

theorem gravityPass_id (g : Grid T) (w h : Nat) (hw : g.length = w)
    (hcols : ∀ c ∈ g, c.length = h) (hat : allTruthy g) : gravityPass g w h = g := by
  unfold gravityPass
  rw [gravityRows_eq_map w _ g hw]
  have hfix : ∀ c ∈ g,
      (((List.range (h - 1)).reverse).map (· + 1)).foldl (fun c r => gravityColStep r c) c
        = c := by
    intro c hcmem
    apply foldl_fixed
    intro r hr
    obtain ⟨x, hx, rfl⟩ := List.mem_map.mp hr
    have hxlt : x < h - 1 := List.mem_range.mp (List.mem_reverse.mp hx)
    unfold gravityColStep
    rw [if_pos]
    have hrr : x + 1 < c.length := by
      rw [hcols c hcmem]
      omega
    exact hat c hcmem _ (getD_mem_of_lt c (x + 1) .undefinedV hrr)
  calc g.map (fun c => (((List.range (h - 1)).reverse).map (· + 1)).foldl
        (fun c r => gravityColStep r c) c)
      = g.map (fun c => c) := List.map_congr_left hfix
    _ = g := List.map_id' g

/-- Counterexample to C5 as stated: `gC5` is a single column with no empty cell
holding the truthy tile 1 above the falsy tile 0; the gravity pass does not
merely move non-empty tiles downward — it destroys the 0 tile (the column's
list of non-empty tiles changes). -/
theorem gravity_nonempty_not_preserved :
    (∀ c ∈ gC5, ∀ x ∈ c, isVal x = true) ∧
    ((gravityPass gC5 1 2).getD 0 []).filter isVal ≠ (gC5.getD 0 []).filter isVal := by
  refine ⟨by decide, by decide⟩

/-- C5 amended.  For a well-formed board whose cells are empty or TRUTHY tiles:
the gravity pass acts column-locally (it is the per-column map of
`compactColumn`, which compacts each column's tiles to the bottom preserving
their relative order and never touches another column), the refill pass fills
exactly the non-truthy cells so that every cell of the result holds a tile
value, and the declared and actual dimensions are unchanged. -/
theorem refillBoard_spec (b : Board T) (hwf : wfBoard b) (hnt : nullOrTruthy b.boardState) :
    (refillBoard b).width = b.width ∧
    (refillBoard b).height = b.height ∧
    (refillBoard b).boardState.length = b.width ∧
    (∀ c ∈ (refillBoard b).boardState, c.length = b.height) ∧
    gravityPass b.boardState b.width b.height = b.boardState.map compactColumn ∧
    (∀ c₀ r₀ : Nat, c₀ < b.width → r₀ < b.height →
      isVal (cellD (refillBoard b).boardState c₀ r₀) = true) ∧
    (∀ c₀ r₀ : Nat, c₀ < b.width → r₀ < b.height →
      truthy (cellD (gravityPass b.boardState b.width b.height) c₀ r₀) = true →
      cellD (refillBoard b).boardState c₀ r₀ =
        cellD (gravityPass b.boardState b.width b.height) c₀ r₀) := by
  obtain ⟨hw, hcols⟩ := hwf
  have hgrav := gravityPass_eq_map_compact b.boardState b.width b.height hw hcols hnt
  have hglen : (gravityPass b.boardState b.width b.height).length = b.width := by
    rw [hgrav]
    simpa using hw
  have hgcols : ∀ c ∈ gravityPass b.boardState b.width b.height, c.length = b.height := by
    rw [hgrav]
    intro c hc
    obtain ⟨c0, hc0, rfl⟩ := List.mem_map.mp hc
    rw [compactColumn_length]
    exact hcols c0 hc0
  have hrb : (refillBoard b).boardState =
      (refillPass (gravityPass b.boardState b.width b.height) b.sequenceGenerator
        b.width b.height).1 := rfl
  refine ⟨rfl, rfl, ?_, ?_, hgrav, ?_, ?_⟩
  · rw [hrb]
    exact (refillPass_dims _ _ _ _ hglen hgcols).1
  · rw [hrb]
    exact (refillPass_dims _ _ _ _ hglen hgcols).2
  · intro c₀ r₀ h1 h2
    rw [hrb]
    exact refillPass_isVal _ _ _ _ hglen hgcols c₀ r₀ h1 h2
  · intro c₀ r₀ h1 h2 ht
    rw [hrb]
    exact refillPass_preserves_truthy _ _ _ _ c₀ r₀ ht

/-- Witness for the amended C5 on a concrete 2x3 board with empty cells. -/
theorem refillBoard_spec_witness :
    gravityPass bC5w.boardState bC5w.width bC5w.height =
      bC5w.boardState.map compactColumn ∧
    ∀ c₀ r₀ : Nat, c₀ < bC5w.width → r₀ < bC5w.height →
      isVal (cellD (refillBoard bC5w).boardState c₀ r₀) = true := by
  have h := refillBoard_spec bC5w (by decide) (by decide)
  exact ⟨h.2.2.2.2.1, h.2.2.2.2.2.1⟩

/-- Counterexample to C9 as stated: `bC9` has no empty cell (every cell holds a
tile value), yet `refillBoard` changes its grid and advances the generator (one
call), because the falsy tile 0 is treated as empty. -/
theorem refillBoard_not_identity_counterexample :
    (∀ c ∈ bC9.boardState, ∀ x ∈ c, isVal x = true) ∧
    (refillBoard bC9).boardState ≠ bC9.boardState ∧
    (refillBoard bC9).sequenceGenerator.idx ≠ bC9.sequenceGenerator.idx := by
  refine ⟨by decide, by decide, by decide⟩

/-- C9 amended.  For a well-formed board whose cells all hold TRUTHY tile
values, `refillBoard` is the identity — the identical tile at every position
and the generator untouched (zero `next` calls) — and is therefore idempotent
on such boards. -/
theorem refillBoard_identity_of_truthy (b : Board T) (hwf : wfBoard b)
    (hat : allTruthy b.boardState) :
    refillBoard b = b ∧ refillBoard (refillBoard b) = refillBoard b := by
  obtain ⟨hw, hcols⟩ := hwf
  have hgrav := gravityPass_id b.boardState b.width b.height hw hcols hat
  have hrefill := refillPass_id b.boardState b.sequenceGenerator b.width b.height hw hcols hat
  have hmain : refillBoard b = b := by
    show Board.mk
        (refillPass (gravityPass b.boardState b.width b.height) b.sequenceGenerator
          b.width b.height).2
        (refillPass (gravityPass b.boardState b.width b.height) b.sequenceGenerator
          b.width b.height).1
        b.width b.height = b
    rw [hgrav, hrefill]
  exact ⟨hmain, by rw [hmain]; exact hmain⟩

/-- Witness for the amended C9 on a concrete all-truthy board. -/
theorem refillBoard_identity_witness : refillBoard bC9w = bC9w :=
  (refillBoard_identity_of_truthy bC9w (by decide) (by decide)).1

end Engine
